import Mathlib

/-!
Verification of the `PianoWithShadowHandsAndG1` task
(`piano_with_shadow_hands_and_g1.py`).

The development shallowly embeds the task's reward, goal-state, fingering,
motion-limiting and step-scheduling logic.  Machine floats are modelled as
exact rationals (`ℚ`); the transcendental gaussian tolerance shaping
function and Euclidean distances live in `ℝ`.  Physics reads (fingertip
positions, key geometry, piano state) enter as explicit parameters, since
the source obtains them from the physics collaborator.
-/

namespace RoboPianistG1

/-! ## Constants from the source module -/

/-- Source constant `_KEY_CLOSE_ENOUGH_TO_PRESSED = 0.05`. -/
def keyCloseEnoughToPressed : ℚ := 5 / 100

/-- Source constant `_FINGER_CLOSE_ENOUGH_TO_KEY = 0.01`. -/
def fingerCloseEnoughToKey : ℚ := 1 / 100

/-- Source `_update_g1_arms`: `vel_scale = 2.0`. -/
def velScale : ℚ := 2

/-- Source `_update_g1_arms`: `vel_limit = 2.0`. -/
def velLimit : ℚ := 2

/-- Source `_update_g1_arms`: `acc_limit = 20.0`. -/
def accLimit : ℚ := 20

/-- Source `_update_g1_arms`: `rate = RateLimiter(frequency=10.0)`, so
`rate.dt = 0.1` is the solve interval used by the limiter stages. -/
def ikDt : ℚ := 1 / 10

/-- Source `__init__`: `self._ik_update_rate = 5`. -/
def ikUpdateRate : ℕ := 5

/-! ## Basic numeric helpers -/

/-- Model of `np.clip` on one component: values outside `[lo, hi]` are
clipped to the interval edges. -/
def clip (x lo hi : ℚ) : ℚ := min (max x lo) hi

/-- Model of `np.flatnonzero` over a rational vector: the indices whose
entry is nonzero, in increasing order. -/
def flatnonzero (xs : List ℚ) : List ℕ :=
  (List.range xs.length).filter (fun i => decide (xs.getD i 0 ≠ 0))

/-- Model of `dm_control.utils.rewards.tolerance` with `sigmoid="gaussian"`
and the default `value_at_margin = 0.1`: `1` inside `[lower, upper]`,
gaussian falloff outside, scaled so the value at distance `margin` from the
band is `0.1`. -/
noncomputable def toleranceGaussian (x lower upper margin : ℝ) : ℝ :=
  if lower ≤ x ∧ x ≤ upper then 1
  else
    Real.exp (-(1 / 2) *
      ((((if x < lower then lower - x else x - upper) / margin) *
          Real.sqrt (-2 * Real.log (1 / 10))) ^ 2))

/-- Points in 3-space with exact rational coordinates (a machine float
triple from the physics snapshot). -/
structure Vec3 where
  x : ℚ
  y : ℚ
  z : ℚ
deriving DecidableEq

/-- Model of `np.linalg.norm(a - b)` for 3-vectors. -/
noncomputable def euclidDist (a b : Vec3) : ℝ :=
  Real.sqrt (((a.x - b.x : ℚ) : ℝ) ^ 2 + ((a.y - b.y : ℚ) : ℝ) ^ 2 +
    ((a.z - b.z : ℚ) : ℝ) ^ 2)

/-! ## Task state (fields of the Python object used by the claims) -/

/-- One note of the schedule: `{key index, finger index 0-9}`
(`midi_file.NoteTrajectory` notes). -/
structure Note where
  key : ℕ
  fingering : ℕ
deriving DecidableEq

/-- The mutable attributes of `PianoWithShadowHandsAndG1` that the
termination / reset / IK-cache claims are about.  `lastVelocities` models
the `_last_velocities` dict (joint name to cached velocity command),
`prevVel` the `_prev_vel` array of the motion limiter. -/
structure TaskState where
  tIdx : ℕ
  shouldTerminate : Bool
  discount : ℚ
  wrongPressTermination : Bool
  failureTermination : Bool
  ikCounter : ℕ
  lastVelocities : Option (String → ℚ)
  prevVel : Option (List ℚ)

/-- Source `_reset_quantities_at_episode_init`: sets `_t_idx = 0`,
`_should_terminate = False`, `_discount = 1.0` and touches nothing else. -/
def resetQuantitiesAtEpisodeInit (s : TaskState) : TaskState :=
  { s with tIdx := 0, shouldTerminate := false, discount := 1 }

/-- Source `should_terminate_episode`: returns `True` on the internal flag;
otherwise, if the wrong-press policy is enabled and the failure flag is
set, zeroes the discount and returns `True`; else `False`.  The pair is
(returned boolean, state after the call). -/
def shouldTerminateEpisode (s : TaskState) : Bool × TaskState :=
  if s.shouldTerminate then (true, s)
  else if s.wrongPressTermination && s.failureTermination then
    (true, { s with discount := 0 })
  else (false, s)

/-- Source `get_discount`: returns `self._discount`. -/
def getDiscount (s : TaskState) : ℚ := s.discount

/-! ## Motion limiter (`_update_g1_arms`, velocity post-processing) -/

/-- The scale-then-clip stages applied to one component of the raw IK
velocity: `vel = np.clip(vel * vel_scale, -vel_limit, vel_limit)`. -/
def scaleClip (v : ℚ) : ℚ := clip (v * velScale) (-velLimit) velLimit

/-- One call of the limiter on the whole velocity vector (componentwise,
as the numpy code is elementwise): scale, clip, then - when a previous
command exists - clip the acceleration `(vel - prev) / dt` to
`[-acc_limit, acc_limit]` and reconstruct `vel = prev + acc * dt`. -/
def limitStep (prev : Option (List ℚ)) (raw : List ℚ) : List ℚ :=
  match prev with
  | none => raw.map scaleClip
  | some p =>
      List.zipWith
        (fun pv cv => pv + clip ((cv - pv) / ikDt) (-accLimit) accLimit * ikDt)
        p (raw.map scaleClip)

/-- The sequence of limited commands produced from a sequence of raw IK
solutions, threading each output as the next call's `_prev_vel`. -/
def limiterTrace : Option (List ℚ) → List (List ℚ) → List (List ℚ)
  | _, [] => []
  | prev, r :: rs => limitStep prev r :: limiterTrace (some (limitStep prev r)) rs

/-! ## Key-press reward (`_compute_key_press_reward`) -/

/-- Source `_compute_key_press_reward`.  `goal` is `self._goal_current`
(length `n_keys + 1`, last entry the sustain column), `pianoState` is
`self.piano.state`, `qposRangeHi` is `self.piano._qpos_range[:, 1]`, and
`activation` is the boolean `self.piano.activation` vector.
`on = np.flatnonzero(goal[:-1])`; if nonempty, add `0.5 * mean` of the
gaussian tolerance of `goal[:-1][on] - (state / qpos_range[:, 1])[on]` with
bounds `(0, 0.05)` and margin `0.5`; then add `0.5 * (1 - activation[off].any())`
for `off = np.flatnonzero(1 - goal[:-1])`. -/
noncomputable def computeKeyPressReward (goal pianoState qposRangeHi : List ℚ)
    (activation : List Bool) : ℝ :=
  let onIdx := flatnonzero goal.dropLast
  let rews := onIdx.map (fun i =>
    toleranceGaussian
      ((goal.dropLast.getD i 0 - pianoState.getD i 0 / qposRangeHi.getD i 0 : ℚ) : ℝ)
      0 (keyCloseEnoughToPressed : ℝ) ((keyCloseEnoughToPressed : ℝ) * 10))
  let base : ℝ := if onIdx.length = 0 then 0 else (1 / 2) * (rews.sum / onIdx.length)
  let offIdx := (List.range goal.dropLast.length).filter
    (fun i => decide ((1 - goal.dropLast.getD i 0 : ℚ) ≠ 0))
  base + (1 / 2) * (1 - if offIdx.any (fun i => activation.getD i false) then 1 else 0)

/-! ## Fingering rewards -/

/-- The key target point used by both fingering rewards: the key geom
position with `z += 0.5 * size[2]` and `x += 0.35 * size[0]`. -/
def adjustedKeyPos (pos size : Vec3) : Vec3 :=
  ⟨pos.x + 35 / 100 * size.x, pos.y, pos.z + 1 / 2 * size.z⟩

/-- Distances computed by `_distance_finger_to_key` inside
`_compute_fingering_reward`: for each `(key, mjcf_fingering)` pair of one
hand, the distance from that hand's fingertip site to the adjusted key
point. -/
noncomputable def handDistances (handKeys : List (ℕ × ℕ)) (tips : ℕ → Vec3)
    (keyPos keySize : ℕ → Vec3) : List ℝ :=
  handKeys.map (fun p =>
    euclidDist (adjustedKeyPos (keyPos p.1) (keySize p.1)) (tips p.2))

/-- Source `_compute_fingering_reward`: concatenates the right-hand and
left-hand distance lists; returns `0` when there are no keys to press,
otherwise the mean gaussian tolerance with bounds `(0, 0.01)` and margin
`0.1` over all distances. -/
noncomputable def computeFingeringReward (rightTips leftTips : ℕ → Vec3)
    (rhKeys lhKeys : List (ℕ × ℕ)) (keyPos keySize : ℕ → Vec3) : ℝ :=
  let dists := handDistances rhKeys rightTips keyPos keySize ++
    handDistances lhKeys leftTips keyPos keySize
  if dists.length = 0 then 0
  else
    ((dists.map (fun d =>
        toleranceGaussian d 0 (fingerCloseEnoughToKey : ℝ)
          ((fingerCloseEnoughToKey : ℝ) * 10))).sum) / dists.length

/-- The 10 fingertip positions in the order built by
`_compute_ot_fingering_reward`: left-hand sites `0..4` first, then
right-hand sites `0..4`. -/
def allFingertips (leftTips rightTips : ℕ → Vec3) : ℕ → Vec3 :=
  fun i => if i < 5 then leftTips i else rightTips (i - 5)

/-- The 10 x k cost matrix of `_compute_ot_fingering_reward`:
`dist[i, j] = np.linalg.norm(key_pos[j] - fingertip_pos[i])` where the key
positions are the adjusted points of the keys to press. -/
noncomputable def otDist (tips : ℕ → Vec3) (keys : List ℕ)
    (keyPos keySize : ℕ → Vec3) (i : Fin 10) (j : Fin keys.length) : ℝ :=
  euclidDist (adjustedKeyPos (keyPos (keys.get j)) (keySize (keys.get j)))
    (tips i.val)

/-- Total cost of assigning required key `j` to fingertip `a j`. -/
noncomputable def assignCost {k : ℕ} (D : Fin 10 → Fin k → ℝ)
    (a : Fin k → Fin 10) : ℝ :=
  ∑ j, D (a j) j

/-- An assignment is minimum-cost when it is injective (each fingertip used
by at most one key) and its total cost is at most that of every other
injective assignment. -/
def IsMinCostAssignment {k : ℕ} (D : Fin 10 → Fin k → ℝ)
    (a : Fin k → Fin 10) : Prop :=
  Function.Injective a ∧
    ∀ b : Fin k → Fin 10, Function.Injective b → assignCost D a ≤ assignCost D b

/-- Model of `scipy.optimize.linear_sum_assignment` on the 10 x k cost
matrix, by its documented contract (external collaborator): it returns a
minimum-cost matching of the k columns (required keys, k at most 10) to
distinct rows (fingertips).  The unmatched `10 - k` fingertips contribute
nothing to the cost. -/
noncomputable def linearSumAssignment {k : ℕ} (D : Fin 10 → Fin k → ℝ) :
    Fin k → Fin 10 :=
  open Classical in
  if h : ∃ a : Fin k → Fin 10, IsMinCostAssignment D a then h.choose
  else fun _ => ⟨0, by norm_num⟩

/-- Source `_compute_ot_fingering_reward` (RP1M optimal-transport reward),
for the regime of at most 10 simultaneously required keys (two hands):
`keys_to_press = np.flatnonzero(goal[:-1])`; returns `1.0` when empty;
otherwise the mean gaussian tolerance (bounds `(0, 0.01)`, margin `0.1`)
over the distances selected by the minimum-cost assignment. -/
noncomputable def otFingeringReward (leftTips rightTips : ℕ → Vec3)
    (goal : List ℚ) (keyPos keySize : ℕ → Vec3) : ℝ :=
  let keysToPress := flatnonzero goal.dropLast
  if keysToPress.length = 0 then 1
  else
    let D := otDist (allFingertips leftTips rightTips) keysToPress keyPos keySize
    let a := linearSumAssignment D
    (∑ j, toleranceGaussian (D (a j) j) 0 (fingerCloseEnoughToKey : ℝ)
      ((fingerCloseEnoughToKey : ℝ) * 10)) / keysToPress.length

/-! ## Goal state (`_update_goal_state`) -/

/-- Model of the fancy-index assignment `goal_state[i, keys] = 1.0`:
set each listed key's entry of the row to `1`. -/
def markKeys (row : List ℚ) (keys : List ℕ) : List ℚ :=
  keys.foldl (fun r k => r.set k 1) row

/-- Model of `goal_state[i, -1] = s`: set the last entry of the row. -/
def setLastEntry (row : List ℚ) (s : ℚ) : List ℚ :=
  row.set (row.length - 1) s

/-- Source `_update_goal_state`.  Returns `none` (no mutation) when
`t_idx == len(notes)`; otherwise rebuilds the
`(n_steps_lookahead + 1) x (n_keys + 1)` zero matrix and, for
`i, t in enumerate(range(t_start, t_end))` with
`t_end = min(t_start + n_steps_lookahead + 1, len(notes))`, marks the keys
of `notes[t]` in row `i` and writes `sustains[t]` into its last column. -/
def updateGoalState (notes : List (List Note)) (sustains : List ℚ)
    (tIdx nStepsLookahead nKeys : ℕ) : Option (List (List ℚ)) :=
  if tIdx = notes.length then none
  else
    let init := List.replicate (nStepsLookahead + 1) (List.replicate (nKeys + 1) (0 : ℚ))
    let tEnd := min (tIdx + nStepsLookahead + 1) notes.length
    some ((List.range (tEnd - tIdx)).foldl
      (fun g i =>
        g.set i (setLastEntry
          (markKeys (g.getD i []) ((notes.getD (tIdx + i) []).map Note.key))
          (sustains.getD (tIdx + i) 0)))
      init)

/-! ## Fingering state (`_update_fingering_state`) -/

/-- Source `_update_fingering_state`.  Returns `none` (no mutation) when
`t_idx == len(notes)`.  Otherwise splits the notes of the current timestep
into right hand (`finger < 5`, kept as is) and left hand (`finger >= 5`,
stored as `finger - 5`), then builds the 2 x 5 matrix with
`state[hand, mjcf_fingering] = 1.0` for every pair of each hand. -/
def updateFingeringState (notes : List (List Note)) (tIdx : ℕ) :
    Option (List (ℕ × ℕ) × List (ℕ × ℕ) × List (List ℚ)) :=
  if tIdx = notes.length then none
  else
    let cur := notes.getD tIdx []
    let rh := cur.filterMap (fun n =>
      if n.fingering < 5 then some (n.key, n.fingering) else none)
    let lh := cur.filterMap (fun n =>
      if n.fingering < 5 then none else some (n.key, n.fingering - 5))
    let mat := [(0, rh), (1, lh)].foldl
      (fun m hk =>
        hk.2.foldl (fun m2 p => m2.set hk.1 ((m2.getD hk.1 []).set p.2 1)) m)
      (List.replicate 2 (List.replicate 5 (0 : ℚ)))
    some (rh, lh, mat)

/-! ## Per-step IK scheduling (`before_step`) -/

/-- The 14 arm joint names iterated by `_update_g1_arms` and `before_step`
(`self._left_arm_joints + self._right_arm_joints`). -/
def allArmJoints : List String :=
  ["left_shoulder_pitch_joint", "left_shoulder_roll_joint",
   "left_shoulder_yaw_joint", "left_elbow_joint", "left_wrist_roll_joint",
   "left_wrist_pitch_joint", "left_wrist_yaw_joint",
   "right_shoulder_pitch_joint", "right_shoulder_roll_joint",
   "right_shoulder_yaw_joint", "right_elbow_joint", "right_wrist_roll_joint",
   "right_wrist_pitch_joint", "right_wrist_yaw_joint"]

/-- A direct write into the physics joint state. -/
inductive PhysWrite where
  | qvel : String → ℚ → PhysWrite
  | qpos : String → ℚ → PhysWrite
deriving DecidableEq

/-- The writes performed by the skipped-IK branch of `before_step`: when
`_last_velocities` is populated, write the cached velocity into `qvel` of
every arm joint that `mjcf_model.find` resolves; otherwise write nothing.
No `qpos` write happens on this path. -/
def skipStepWrites (findJoint : String → Bool)
    (lastVelocities : Option (String → ℚ)) : List PhysWrite :=
  match lastVelocities with
  | none => []
  | some m => (allArmJoints.filter findJoint).map (fun j => PhysWrite.qvel j (m j))

/-- The solve/skip decisions of `before_step` over `n` consecutive steps,
starting from IK counter `c`: solve when `counter % 5 == 0` (then the
counter is reset to `0`); the counter is incremented after the branch. -/
def solveFlags : ℕ → ℕ → List Bool
  | _, 0 => []
  | c, n + 1 =>
      (c % ikUpdateRate == 0) ::
        solveFlags (if c % ikUpdateRate == 0 then 0 + 1 else c + 1) n

/-! ## Helper lemmas on lists -/

theorem getD_set {α : Type} (l : List α) (i j : ℕ) (v d : α) :
    (l.set i v).getD j d = if i = j ∧ i < l.length then v else l.getD j d := by
  simp only [List.getD_eq_getElem?_getD, List.getElem?_set]
  rcases eq_or_ne i j with h | h
  · subst h
    rcases Nat.lt_or_ge i l.length with h2 | h2
    · simp [h2]
    · have hnone : l[i]? = none := List.getElem?_eq_none h2
      simp [Nat.not_lt.mpr h2, hnone]
  · simp [h]

theorem getD_replicate {α : Type} (n i : ℕ) (a d : α) :
    (List.replicate n a).getD i d = if i < n then a else d := by
  rcases Nat.lt_or_ge i n with h | h
  · rw [List.getD_eq_getElem _ _ (by simpa using h), List.getElem_replicate, if_pos h]
  · rw [List.getD_eq_default _ _ (by simpa using h), if_neg (Nat.not_lt.mpr h)]

theorem getD_map_fixed {α β : Type} (f : α → β) (l : List α) (i : ℕ) (d : α) :
    (l.map f).getD i (f d) = f (l.getD i d) := by
  simp only [List.getD_eq_getElem?_getD, List.getElem?_map]
  cases l[i]? <;> simp

theorem sum_map_filter_range (n : ℕ) (p : ℕ → Bool) (f : ℕ → ℝ) :
    ((((List.range n).filter p).map f).sum) =
      ∑ i ∈ Finset.range n, if p i = true then f i else 0 := by
  induction n with
  | zero => simp
  | succ n ih =>
      rw [List.range_succ, List.filter_append, List.map_append, List.sum_append,
        Finset.sum_range_succ, ih]
      cases h : p n <;> simp [h]

theorem length_filter_range (n : ℕ) (p : ℕ → Bool) :
    ((List.range n).filter p).length =
      ((Finset.range n).filter (fun i => p i = true)).card := by
  induction n with
  | zero => simp
  | succ n ih =>
      rw [List.range_succ, List.filter_append, List.length_append,
        Finset.range_succ, Finset.filter_insert]
      cases h : p n <;>
        simp [h, ih, Finset.card_insert_of_not_mem, Finset.not_mem_range_self]

theorem foldl_set_length {α : Type} (l : List ℕ) (f : ℕ → α → α)
    (g : List α) (d : α) :
    (l.foldl (fun acc j => acc.set j (f j (acc.getD j d))) g).length = g.length := by
  induction l generalizing g with
  | nil => rfl
  | cons a l ih =>
      rw [List.foldl_cons, ih]
      exact List.length_set ..

theorem foldl_set_getD {α : Type} (l : List ℕ) (hl : l.Nodup) (f : ℕ → α → α)
    (g : List α) (d : α) (i : ℕ) :
    (l.foldl (fun acc j => acc.set j (f j (acc.getD j d))) g).getD i d =
      if i ∈ l ∧ i < g.length then f i (g.getD i d) else g.getD i d := by
  induction l generalizing g with
  | nil => simp
  | cons a l ih =>
      rw [List.foldl_cons, ih (List.Nodup.of_cons hl)]
      have ha : a ∉ l := (List.nodup_cons.mp hl).1
      rw [List.length_set]
      by_cases hil : i ∈ l
      · have hne : a ≠ i := fun h => ha (h ▸ hil)
        have h1 : (g.set a (f a (g.getD a d))).getD i d = g.getD i d := by
          rw [getD_set, if_neg (fun h => hne h.1)]
        rw [h1]
        by_cases hlen : i < g.length
        · rw [if_pos ⟨hil, hlen⟩, if_pos ⟨List.mem_cons_of_mem _ hil, hlen⟩]
        · rw [if_neg (fun h => hlen h.2), if_neg (fun h => hlen h.2)]
      · rw [if_neg (fun h => hil h.1), getD_set]
        rcases eq_or_ne a i with rfl | hne
        · by_cases hlen : a < g.length
          · rw [if_pos ⟨rfl, hlen⟩, if_pos ⟨List.mem_cons_self a _, hlen⟩]
          · rw [if_neg (fun h => hlen h.2), if_neg (fun h => hlen h.2)]
        · rw [if_neg (fun h => hne h.1), if_neg]
          rintro ⟨hmem, -⟩
          rcases List.mem_cons.mp hmem with rfl | h
          · exact hne rfl
          · exact hil h

/-! ## Lemmas about `markKeys` and `setLastEntry` -/

theorem markKeys_length (row : List ℚ) (keys : List ℕ) :
    (markKeys row keys).length = row.length := by
  induction keys generalizing row with
  | nil => rfl
  | cons k ks ih =>
      show (markKeys (row.set k 1) ks).length = row.length
      rw [ih, List.length_set]

theorem markKeys_getD (row : List ℚ) (keys : List ℕ) (j : ℕ) :
    (markKeys row keys).getD j 0 =
      if j ∈ keys ∧ j < row.length then 1 else row.getD j 0 := by
  induction keys generalizing row with
  | nil => simp [markKeys]
  | cons k ks ih =>
      show (markKeys (row.set k 1) ks).getD j 0 = _
      rw [ih, List.length_set, getD_set]
      by_cases hj : j < row.length
      · by_cases hks : j ∈ ks
        · rw [if_pos ⟨hks, hj⟩, if_pos ⟨List.mem_cons_of_mem _ hks, hj⟩]
        · rw [if_neg (fun h => hks h.1)]
          rcases eq_or_ne k j with rfl | hne
          · rw [if_pos ⟨rfl, hj⟩, if_pos ⟨List.mem_cons_self k _, hj⟩]
          · rw [if_neg (fun h => hne h.1), if_neg]
            rintro ⟨hmem, -⟩
            rcases List.mem_cons.mp hmem with rfl | h
            · exact hne rfl
            · exact hks h
      · have hc : ¬(k = j ∧ k < row.length) := by
          rintro ⟨rfl, hk⟩; exact hj hk
        rw [if_neg (fun h => hj h.2), if_neg hc, if_neg (fun h => hj h.2)]

theorem setLastEntry_length (row : List ℚ) (s : ℚ) :
    (setLastEntry row s).length = row.length := List.length_set ..

theorem setLastEntry_getD (row : List ℚ) (s : ℚ) (j : ℕ) :
    (setLastEntry row s).getD j 0 =
      if row.length - 1 = j ∧ row.length - 1 < row.length then s
      else row.getD j 0 := getD_set ..

/-! ## Lemmas about `clip` and the motion limiter stages -/

theorem clip_bounds (x lo hi : ℚ) (h : lo ≤ hi) :
    lo ≤ clip x lo hi ∧ clip x lo hi ≤ hi :=
  ⟨le_min (le_max_right x lo) h, min_le_right _ _⟩

theorem clip_of_mem (x lo hi : ℚ) (h1 : lo ≤ x) (h2 : x ≤ hi) :
    clip x lo hi = x := by
  unfold clip
  rw [max_eq_left h1, min_eq_left h2]

theorem scaleClip_bounds (v : ℚ) :
    -velLimit ≤ scaleClip v ∧ scaleClip v ≤ velLimit :=
  clip_bounds _ _ _ (by norm_num [velLimit])

theorem accStage_bounds (pv cv : ℚ)
    (hp1 : -velLimit ≤ pv) (hp2 : pv ≤ velLimit)
    (hc1 : -velLimit ≤ cv) (hc2 : cv ≤ velLimit) :
    -velLimit ≤ pv + clip ((cv - pv) / ikDt) (-accLimit) accLimit * ikDt ∧
      pv + clip ((cv - pv) / ikDt) (-accLimit) accLimit * ikDt ≤ velLimit := by
  have hdiv : (cv - pv) / ikDt = (cv - pv) * 10 := by
    rw [ikDt]; ring
  rw [hdiv]
  unfold clip velLimit accLimit ikDt at *
  rcases min_cases (max ((cv - pv) * 10) (-20)) 20 with ⟨hmin, hle⟩ | ⟨hmin, hle⟩ <;>
    rcases max_cases ((cv - pv) * 10) (-20 : ℚ) with ⟨hmax, hge⟩ | ⟨hmax, hge⟩ <;>
      rw [hmin] <;> constructor <;> linarith

theorem limitStep_getD_none (raw : List ℚ) (i : ℕ) :
    (limitStep none raw).getD i 0 = scaleClip (raw.getD i 0) := by
  have h0 : scaleClip 0 = 0 := by
    unfold scaleClip velScale velLimit
    rw [zero_mul, clip_of_mem] <;> norm_num
  calc (limitStep none raw).getD i 0
      = (raw.map scaleClip).getD i (scaleClip 0) := by rw [limitStep, h0]
    _ = scaleClip (raw.getD i 0) := getD_map_fixed ..

theorem limitStep_getD_some (p raw : List ℚ) (i : ℕ)
    (hi : i < (limitStep (some p) raw).length) :
    (limitStep (some p) raw).getD i 0 =
      p.getD i 0 +
        clip ((scaleClip (raw.getD i 0) - p.getD i 0) / ikDt)
          (-accLimit) accLimit * ikDt := by
  have hlen := hi
  rw [limitStep] at hlen ⊢
  rw [List.length_zipWith] at hlen
  have hp : i < p.length := lt_of_lt_of_le hlen (min_le_left _ _)
  have hm : i < (raw.map scaleClip).length := lt_of_lt_of_le hlen (min_le_right _ _)
  have hr : i < raw.length := by simpa using hm
  rw [List.getD_eq_getElem _ _ (by rw [List.length_zipWith]; exact hlen),
    List.getElem_zipWith, List.getD_eq_getElem _ _ hp, List.getD_eq_getElem _ _ hr,
    List.getElem_map]

theorem limiterTrace_mem_bounds (raws : List (List ℚ)) (prev : Option (List ℚ))
    (hprev : ∀ p, prev = some p → ∀ i, -velLimit ≤ p.getD i 0 ∧ p.getD i 0 ≤ velLimit) :
    ∀ o ∈ limiterTrace prev raws, ∀ i, -velLimit ≤ o.getD i 0 ∧ o.getD i 0 ≤ velLimit := by
  induction raws generalizing prev with
  | nil => intro o ho; simp [limiterTrace] at ho
  | cons r rs ih =>
      have hstep : ∀ i, -velLimit ≤ (limitStep prev r).getD i 0 ∧
          (limitStep prev r).getD i 0 ≤ velLimit := by
        intro i
        cases prev with
        | none =>
            rw [limitStep_getD_none]
            exact scaleClip_bounds _
        | some p =>
            by_cases hi : i < (limitStep (some p) r).length
            · rw [limitStep_getD_some _ _ _ hi]
              rcases hprev p rfl i with ⟨hp1, hp2⟩
              rcases scaleClip_bounds (r.getD i 0) with ⟨hc1, hc2⟩
              exact accStage_bounds _ _ hp1 hp2 hc1 hc2
            · rw [List.getD_eq_default _ _ (Nat.le_of_not_lt hi)]
              norm_num [velLimit]
      intro o ho i
      rw [limiterTrace] at ho
      rcases List.mem_cons.mp ho with rfl | ho
      · exact hstep i
      · exact ih (some (limitStep prev r))
          (fun p hp => by cases hp; exact hstep) o ho i

theorem limiterTrace_accel (raws : List (List ℚ)) (prev : Option (List ℚ)) :
    ∀ n, n + 1 < (limiterTrace prev raws).length → ∀ i,
      i < ((limiterTrace prev raws).getD (n + 1) []).length →
      ((limiterTrace prev raws).getD (n + 1) []).getD i 0 -
          ((limiterTrace prev raws).getD n []).getD i 0 =
        clip ((scaleClip ((raws.getD (n + 1) []).getD i 0) -
            ((limiterTrace prev raws).getD n []).getD i 0) / ikDt)
          (-accLimit) accLimit * ikDt := by
  induction raws generalizing prev with
  | nil => intro n hn; simp [limiterTrace] at hn
  | cons r rs ih =>
      intro n hn i hi
      cases rs with
      | nil =>
          rw [limiterTrace, limiterTrace] at hn
          simp at hn
      | cons r2 rs2 =>
          cases n with
          | zero =>
              simp only [limiterTrace, List.getD_cons_succ, List.getD_cons_zero] at hi ⊢
              rw [limitStep_getD_some _ _ _ hi]
              ring
          | succ m =>
              simp only [limiterTrace, List.getD_cons_succ, List.length_cons] at hn hi ⊢
              exact ih (some (limitStep prev r)) m (Nat.lt_of_succ_lt_succ hn) i hi

theorem limiterTrace_first (prev : Option (List ℚ)) (r : List ℚ) (rs : List (List ℚ)) :
    (limiterTrace prev (r :: rs)).getD 0 [] = limitStep prev r := by
  rw [limiterTrace, List.getD_cons_zero]

/-! ## Existence of a minimum-cost assignment -/

theorem exists_minCostAssignment {k : ℕ} (D : Fin 10 → Fin k → ℝ) (hk : k ≤ 10) :
    ∃ a : Fin k → Fin 10, IsMinCostAssignment D a := by
  classical
  have hinj : Function.Injective (Fin.castLE hk) := Fin.castLE_injective hk
  have hne : (Finset.univ.filter
      (fun b : Fin k → Fin 10 => Function.Injective b)).Nonempty :=
    ⟨Fin.castLE hk, by simp [hinj]⟩
  obtain ⟨a, ha, hmin⟩ := Finset.exists_min_image _ (assignCost D) hne
  refine ⟨a, (Finset.mem_filter.mp ha).2, fun b hb => hmin b ?_⟩
  simp [hb]

theorem linearSumAssignment_isMinCost {k : ℕ} (D : Fin 10 → Fin k → ℝ)
    (hk : k ≤ 10) : IsMinCostAssignment D (linearSumAssignment D) := by
  have h := exists_minCostAssignment D hk
  rw [linearSumAssignment, dif_pos h]
  exact h.choose_spec

/-! ## The IK counter schedule -/

theorem solveFlags_shifted (n : ℕ) :
    ∀ c, 1 ≤ c → c ≤ 5 → ∀ i < n,
      ((solveFlags c n).getD i false = true ↔ (i + c) % 5 = 0) := by
  induction n with
  | zero => intro c _ _ i hi; omega
  | succ n ih =>
      intro c hc1 hc5 i hi
      rw [solveFlags]
      cases i with
      | zero =>
          rw [List.getD_cons_zero]
          simp only [ikUpdateRate, beq_iff_eq]
          omega
      | succ m =>
          rw [List.getD_cons_succ]
          by_cases hz : c % ikUpdateRate = 0
          · have hc : c = 5 := by simp only [ikUpdateRate] at hz; omega
            rw [if_pos (by simp [hz] : (c % ikUpdateRate == 0) = true)]
            rw [ih 1 (by omega) (by omega) m (by omega)]
            subst hc
            omega
          · have hc : c ≤ 4 := by simp only [ikUpdateRate] at hz; omega
            rw [if_neg (by simp [hz] : ¬((c % ikUpdateRate == 0) = true))]
            rw [ih (c + 1) (by omega) (by omega) m (by omega)]
            omega

theorem solveFlags_from_start (n : ℕ) :
    ∀ i < n, ((solveFlags 0 n).getD i false = true ↔ i % 5 = 0) := by
  intro i hi
  cases n with
  | zero => omega
  | succ n =>
      rw [solveFlags]
      cases i with
      | zero => simp
      | succ m =>
          rw [List.getD_cons_succ, ite_self]
          rw [solveFlags_shifted n 1 (by omega) (by omega) m (by omega)]

/-! ## Claim theorems -/

/-- C5: `should_terminate_episode` returns true exactly when the internal
termination flag is set or when the wrong-key-press termination policy is
enabled together with the failure-termination flag; `get_discount` returns
`1.0` unless the episode terminated early through the wrong-key-press
policy path, in which case it returns `0.0`; episode initialization resets
the discount to `1.0` and the termination flag to `false`. -/
theorem termination_discount_contract (s : TaskState) :
    ((shouldTerminateEpisode s).1 = true ↔
      (s.shouldTerminate = true ∨
        (s.wrongPressTermination = true ∧ s.failureTermination = true))) ∧
    (s.discount = 1 →
      getDiscount (shouldTerminateEpisode s).2 =
        if s.shouldTerminate = false ∧ s.wrongPressTermination = true ∧
            s.failureTermination = true then 0 else 1) ∧
    getDiscount (resetQuantitiesAtEpisodeInit s) = 1 ∧
    (resetQuantitiesAtEpisodeInit s).shouldTerminate = false := by
  refine ⟨?_, ?_, rfl, rfl⟩
  · rcases s with ⟨t, st, d, w, f, ic, lv, pv⟩
    cases st <;> cases w <;> cases f <;> simp [shouldTerminateEpisode]
  · intro hd
    rcases s with ⟨t, st, d, w, f, ic, lv, pv⟩
    cases st <;> cases w <;> cases f <;>
      simp_all [shouldTerminateEpisode, getDiscount]

theorem termination_discount_contract_witness :
    getDiscount (shouldTerminateEpisode
      ⟨0, false, 1, true, true, 0, none, none⟩).2 =
      if (false : Bool) = false ∧ (true : Bool) = true ∧ (true : Bool) = true
      then 0 else 1 :=
  (termination_discount_contract ⟨0, false, 1, true, true, 0, none, none⟩).2.1 rfl

/-- C9: the per-episode reset `_reset_quantities_at_episode_init` does not
touch the IK caches created at construction (`_prev_vel`,
`_last_velocities`, `_ik_counter`); it resets only the timestep index, the
termination flag and the discount.  Consequently the limiter's
acceleration stage after a reset still limits against the previous
episode's final command. -/
theorem episodeInit_preserves_ik_caches (s : TaskState) :
    (resetQuantitiesAtEpisodeInit s).prevVel = s.prevVel ∧
    (resetQuantitiesAtEpisodeInit s).lastVelocities = s.lastVelocities ∧
    (resetQuantitiesAtEpisodeInit s).ikCounter = s.ikCounter ∧
    (resetQuantitiesAtEpisodeInit s).tIdx = 0 ∧
    (resetQuantitiesAtEpisodeInit s).shouldTerminate = false ∧
    (resetQuantitiesAtEpisodeInit s).discount = 1 ∧
    ∀ raw, limitStep (resetQuantitiesAtEpisodeInit s).prevVel raw =
      limitStep s.prevVel raw :=
  ⟨rfl, rfl, rfl, rfl, rfl, rfl, fun _ => rfl⟩

/-- C10: on environment steps where the IK solve is skipped, `before_step`
writes only joint velocities taken unchanged from the cached
`_last_velocities` map, for arm joints that resolve; it writes no joint
positions, and writes nothing at all when no velocities have been
cached. -/
theorem skipStep_writes_only_velocities (findJoint : String → Bool)
    (last : Option (String → ℚ)) :
    (∀ w ∈ skipStepWrites findJoint last,
      ∃ m j, last = some m ∧ j ∈ allArmJoints ∧ findJoint j = true ∧
        w = PhysWrite.qvel j (m j)) ∧
    (last = none → skipStepWrites findJoint last = []) ∧
    (∀ j p, PhysWrite.qpos j p ∉ skipStepWrites findJoint last) := by
  refine ⟨?_, ?_, ?_⟩
  · intro w hw
    cases last with
    | none => simp [skipStepWrites] at hw
    | some m =>
        simp only [skipStepWrites] at hw
        obtain ⟨j, hj, rfl⟩ := List.mem_map.mp hw
        obtain ⟨hmem, hfind⟩ := List.mem_filter.mp hj
        exact ⟨m, j, rfl, hmem, hfind, rfl⟩
  · rintro rfl
    rfl
  · intro j p hmem
    cases last with
    | none => simp [skipStepWrites] at hmem
    | some m =>
        simp only [skipStepWrites] at hmem
        obtain ⟨j2, hj2, heq⟩ := List.mem_map.mp hmem
        exact PhysWrite.noConfusion heq

theorem skipStep_writes_only_velocities_witness :
    skipStepWrites (fun _ => true) none = [] ∧
    PhysWrite.qpos "left_elbow_joint" 0 ∉
      skipStepWrites (fun _ => true) (some (fun _ => 1)) :=
  ⟨(skipStep_writes_only_velocities (fun _ => true) none).2.1 rfl,
   (skipStep_writes_only_velocities (fun _ => true)
     (some (fun _ => 1))).2.2 "left_elbow_joint" 0⟩

/-- C6: the IK solve runs exactly on every `ikUpdateRate`-th (= 5th) step
of the run started at construction (counter `0`), and on the skipped steps
the cached per-joint velocity command is re-applied unchanged for every
arm joint that resolves in the model. -/
theorem ik_rate_decoupling (n : ℕ) :
    (∀ i < n, ((solveFlags 0 n).getD i false = true ↔ i % ikUpdateRate = 0)) ∧
    (∀ (findJoint : String → Bool) (m : String → ℚ) (j : String),
      j ∈ allArmJoints → findJoint j = true →
      PhysWrite.qvel j (m j) ∈ skipStepWrites findJoint (some m)) := by
  constructor
  · intro i hi
    rw [show ikUpdateRate = 5 from rfl]
    exact solveFlags_from_start n i hi
  · intro f m j hj hf
    simp only [skipStepWrites]
    exact List.mem_map.mpr ⟨j, List.mem_filter.mpr ⟨hj, hf⟩, rfl⟩

theorem ik_rate_decoupling_witness :
    ((solveFlags 0 6).getD 5 false = true ↔ 5 % ikUpdateRate = 0) ∧
    PhysWrite.qvel "left_elbow_joint" ((fun _ => (1 : ℚ)) "left_elbow_joint") ∈
      skipStepWrites (fun _ => true) (some (fun _ => (1 : ℚ))) :=
  ⟨(ik_rate_decoupling 6).1 5 (by omega),
   (ik_rate_decoupling 6).2 (fun _ => true) (fun _ => (1 : ℚ))
     "left_elbow_joint" (by decide) rfl⟩

/-- C7: with zero required keys at the current timestep the
optimal-transport fingering reward returns exactly `1.0` while the direct
fingering reward with no assigned fingers returns exactly `0.0`; the two
defaults differ and both paths return a value. -/
theorem no_required_keys_defaults (leftTips rightTips : ℕ → Vec3)
    (goal : List ℚ) (keyPos keySize : ℕ → Vec3)
    (h : flatnonzero goal.dropLast = []) :
    otFingeringReward leftTips rightTips goal keyPos keySize = 1 ∧
    computeFingeringReward rightTips leftTips [] [] keyPos keySize = 0 ∧
    (1 : ℝ) ≠ 0 := by
  refine ⟨?_, ?_, one_ne_zero⟩
  · simp only [otFingeringReward, h]
    norm_num
  · rfl

theorem no_required_keys_defaults_witness :
    otFingeringReward (fun _ => ⟨0, 0, 0⟩) (fun _ => ⟨0, 0, 0⟩) [0]
      (fun _ => ⟨0, 0, 0⟩) (fun _ => ⟨0, 0, 0⟩) = 1 ∧
    computeFingeringReward (fun _ => ⟨0, 0, 0⟩) (fun _ => ⟨0, 0, 0⟩) [] []
      (fun _ => ⟨0, 0, 0⟩) (fun _ => ⟨0, 0, 0⟩) = 0 ∧
    (1 : ℝ) ≠ 0 :=
  no_required_keys_defaults _ _ _ _ _ (by decide)

/-- C3: every component of every command output by the
scale-then-clip-then-acceleration-limit stages stays within
`[-velLimit, velLimit]`; whenever a previous command exists the
per-component first difference divided by the solve interval stays within
`[-accLimit, accLimit]`; and on the very first call (no previous
velocity) the acceleration stage is skipped, the output being exactly the
scaled-and-clipped input. -/
theorem motion_limiter_contract (raws : List (List ℚ)) :
    (∀ o ∈ limiterTrace none raws, ∀ i : ℕ,
      -velLimit ≤ o.getD i 0 ∧ o.getD i 0 ≤ velLimit) ∧
    (∀ n, n + 1 < (limiterTrace none raws).length → ∀ i,
      i < ((limiterTrace none raws).getD (n + 1) []).length →
      -accLimit ≤ (((limiterTrace none raws).getD (n + 1) []).getD i 0 -
          ((limiterTrace none raws).getD n []).getD i 0) / ikDt ∧
      (((limiterTrace none raws).getD (n + 1) []).getD i 0 -
          ((limiterTrace none raws).getD n []).getD i 0) / ikDt ≤ accLimit) ∧
    (∀ r rs, raws = r :: rs →
      (limiterTrace none raws).getD 0 [] = r.map scaleClip) := by
  refine ⟨?_, ?_, ?_⟩
  · exact limiterTrace_mem_bounds raws none (fun p hp => by cases hp)
  · intro n hn i hi
    rw [limiterTrace_accel raws none n hn i hi]
    have hdt : (ikDt : ℚ) ≠ 0 := by norm_num [ikDt]
    rw [mul_div_cancel_right₀ _ hdt]
    exact clip_bounds _ _ _ (by norm_num [accLimit])
  · rintro r rs rfl
    rw [limiterTrace_first]
    rfl

theorem motion_limiter_contract_witness :
    (-velLimit ≤ ((limiterTrace none [[100], [0]]).getD 1 []).getD 0 0 ∧
      ((limiterTrace none [[100], [0]]).getD 1 []).getD 0 0 ≤ velLimit) ∧
    (-accLimit ≤ (((limiterTrace none [[100], [0]]).getD 1 []).getD 0 0 -
        ((limiterTrace none [[100], [0]]).getD 0 []).getD 0 0) / ikDt ∧
      (((limiterTrace none [[100], [0]]).getD 1 []).getD 0 0 -
        ((limiterTrace none [[100], [0]]).getD 0 []).getD 0 0) / ikDt ≤ accLimit) ∧
    (limiterTrace none [[100], [0]]).getD 0 [] = [100].map scaleClip := by
  obtain ⟨h1, h2, h3⟩ := motion_limiter_contract [[100], [0]]
  have hlen : 1 < (limiterTrace none [[100], [0]]).length := by
    simp [limiterTrace]
  have hmem : (limiterTrace none [[100], [0]]).getD 1 [] ∈
      limiterTrace none [[100], [0]] := by
    rw [List.getD_eq_getElem _ _ hlen]
    exact List.getElem_mem hlen
  have hilen : 0 < ((limiterTrace none [[100], [0]]).getD 1 []).length := by
    simp [limiterTrace, limitStep, List.length_zipWith]
  exact ⟨h1 _ hmem 0, h2 0 hlen 0 hilen, h3 [100] [[0]] rfl⟩

/-- C2: for at least one and at most ten required keys, the
optimal-transport fingering reward equals the mean gaussian
tolerance-score over the distances selected by a minimum-cost bipartite
assignment of required keys to distinct fingertips: the assignment is
injective and its total cost is at most that of every other injective
assignment (so it agrees with a brute-force search over all
assignments). -/
theorem otFingeringReward_minCost (leftTips rightTips : ℕ → Vec3)
    (goal : List ℚ) (keyPos keySize : ℕ → Vec3)
    (h1 : flatnonzero goal.dropLast ≠ [])
    (h2 : (flatnonzero goal.dropLast).length ≤ 10) :
    ∃ a : Fin (flatnonzero goal.dropLast).length → Fin 10,
      Function.Injective a ∧
      (∀ b, Function.Injective b →
        assignCost (otDist (allFingertips leftTips rightTips)
          (flatnonzero goal.dropLast) keyPos keySize) a ≤
        assignCost (otDist (allFingertips leftTips rightTips)
          (flatnonzero goal.dropLast) keyPos keySize) b) ∧
      otFingeringReward leftTips rightTips goal keyPos keySize =
        (∑ j, toleranceGaussian
          (otDist (allFingertips leftTips rightTips) (flatnonzero goal.dropLast)
            keyPos keySize (a j) j)
          0 (fingerCloseEnoughToKey : ℝ) ((fingerCloseEnoughToKey : ℝ) * 10)) /
        (flatnonzero goal.dropLast).length := by
  have hlen : (flatnonzero goal.dropLast).length ≠ 0 :=
    fun hc => h1 (List.length_eq_zero.mp hc)
  obtain ⟨hinj, hmin⟩ := linearSumAssignment_isMinCost
    (otDist (allFingertips leftTips rightTips) (flatnonzero goal.dropLast)
      keyPos keySize) h2
  exact ⟨_, hinj, hmin, by simp only [otFingeringReward, if_neg hlen]⟩

theorem otFingeringReward_minCost_witness :
    ∃ a : Fin (flatnonzero (([1, 0] : List ℚ)).dropLast).length → Fin 10,
      Function.Injective a ∧
      (∀ b, Function.Injective b →
        assignCost (otDist (allFingertips (fun _ => ⟨0, 0, 0⟩) (fun _ => ⟨0, 0, 0⟩))
          (flatnonzero (([1, 0] : List ℚ)).dropLast)
          (fun _ => ⟨0, 0, 0⟩) (fun _ => ⟨0, 0, 0⟩)) a ≤
        assignCost (otDist (allFingertips (fun _ => ⟨0, 0, 0⟩) (fun _ => ⟨0, 0, 0⟩))
          (flatnonzero (([1, 0] : List ℚ)).dropLast)
          (fun _ => ⟨0, 0, 0⟩) (fun _ => ⟨0, 0, 0⟩)) b) ∧
      otFingeringReward (fun _ => ⟨0, 0, 0⟩) (fun _ => ⟨0, 0, 0⟩) [1, 0]
        (fun _ => ⟨0, 0, 0⟩) (fun _ => ⟨0, 0, 0⟩) =
        (∑ j, toleranceGaussian
          (otDist (allFingertips (fun _ => ⟨0, 0, 0⟩) (fun _ => ⟨0, 0, 0⟩))
            (flatnonzero (([1, 0] : List ℚ)).dropLast)
            (fun _ => ⟨0, 0, 0⟩) (fun _ => ⟨0, 0, 0⟩) (a j) j)
          0 (fingerCloseEnoughToKey : ℝ) ((fingerCloseEnoughToKey : ℝ) * 10)) /
        (flatnonzero (([1, 0] : List ℚ)).dropLast).length :=
  otFingeringReward_minCost _ _ _ _ _ (by decide) (by decide)

/-- C1: for a binary goal row, the key-press reward equals `0.5` times the
mean gaussian tolerance of (target activation minus actual activation)
over the keys required on (contributing `0` when no key is required on),
plus `0.5` when no key required off is active and `0` otherwise - so a
single active off-key zeroes the whole off-term regardless of how many
off-keys exist. -/
theorem keyPress_reward_spec (goal pianoState qposRangeHi : List ℚ)
    (activation : List Bool)
    (hb : ∀ x ∈ goal.dropLast, x = 0 ∨ x = 1) :
    computeKeyPressReward goal pianoState qposRangeHi activation =
      (if (Finset.range goal.dropLast.length).filter
            (fun i => goal.dropLast.getD i 0 = 1) = ∅ then 0
       else (1 / 2 : ℝ) *
         ((∑ i ∈ (Finset.range goal.dropLast.length).filter
             (fun i => goal.dropLast.getD i 0 = 1),
             toleranceGaussian
               ((goal.dropLast.getD i 0 -
                 pianoState.getD i 0 / qposRangeHi.getD i 0 : ℚ) : ℝ)
               0 (keyCloseEnoughToPressed : ℝ)
               ((keyCloseEnoughToPressed : ℝ) * 10)) /
           ((Finset.range goal.dropLast.length).filter
             (fun i => goal.dropLast.getD i 0 = 1)).card)) +
      (if ∀ i ∈ (Finset.range goal.dropLast.length).filter
            (fun i => goal.dropLast.getD i 0 = 0),
          activation.getD i false = false
       then (1 / 2 : ℝ) else 0) := by
  have hmem : ∀ i, i < goal.dropLast.length →
      goal.dropLast.getD i 0 = 0 ∨ goal.dropLast.getD i 0 = 1 := by
    intro i hi
    rw [List.getD_eq_getElem _ _ hi]
    exact hb _ (List.getElem_mem hi)
  have hcong : flatnonzero goal.dropLast =
      (List.range goal.dropLast.length).filter
        (fun i => decide (goal.dropLast.getD i 0 = 1)) := by
    rw [flatnonzero]
    refine List.filter_congr ?_
    intro i hi
    rcases hmem i (List.mem_range.mp hi) with h | h <;>
      rw [decide_eq_decide] <;> rw [h] <;> norm_num
  have hoff : (List.range goal.dropLast.length).filter
        (fun i => decide ((1 - goal.dropLast.getD i 0 : ℚ) ≠ 0)) =
      (List.range goal.dropLast.length).filter
        (fun i => decide (goal.dropLast.getD i 0 = 0)) := by
    refine List.filter_congr ?_
    intro i hi
    rcases hmem i (List.mem_range.mp hi) with h | h <;>
      rw [decide_eq_decide] <;> rw [h] <;> norm_num
  have hlen : ((List.range goal.dropLast.length).filter
        (fun i => decide (goal.dropLast.getD i 0 = 1))).length =
      ((Finset.range goal.dropLast.length).filter
        (fun i => goal.dropLast.getD i 0 = 1)).card := by
    rw [length_filter_range]
    exact congrArg Finset.card (Finset.filter_congr (fun i _ => by simp))
  have hsum : ((((List.range goal.dropLast.length).filter
        (fun i => decide (goal.dropLast.getD i 0 = 1))).map
          (fun i => toleranceGaussian
            ((goal.dropLast.getD i 0 -
              pianoState.getD i 0 / qposRangeHi.getD i 0 : ℚ) : ℝ)
            0 (keyCloseEnoughToPressed : ℝ)
            ((keyCloseEnoughToPressed : ℝ) * 10))).sum) =
      ∑ i ∈ (Finset.range goal.dropLast.length).filter
          (fun i => goal.dropLast.getD i 0 = 1),
        toleranceGaussian
          ((goal.dropLast.getD i 0 -
            pianoState.getD i 0 / qposRangeHi.getD i 0 : ℚ) : ℝ)
          0 (keyCloseEnoughToPressed : ℝ)
          ((keyCloseEnoughToPressed : ℝ) * 10) := by
    rw [sum_map_filter_range, ← Finset.sum_filter]
    exact Finset.sum_congr (Finset.filter_congr (fun i _ => by simp))
      (fun _ _ => rfl)
  simp only [computeKeyPressReward]
  rw [hcong, hoff, hsum, hlen]
  have hset : ∀ i : ℕ,
      i ∈ (List.range goal.dropLast.length).filter
        (fun i => decide (goal.dropLast.getD i 0 = 0)) ↔
      i ∈ (Finset.range goal.dropLast.length).filter
        (fun i => goal.dropLast.getD i 0 = 0) := by
    intro i
    rw [List.mem_filter, List.mem_range, Finset.mem_filter, Finset.mem_range]
    simp
  congr 1
  · simp only [Finset.card_eq_zero]
  · by_cases hA : ∀ i ∈ (Finset.range goal.dropLast.length).filter
        (fun i => goal.dropLast.getD i 0 = 0), activation.getD i false = false
    · rw [if_pos hA]
      have hany : ((List.range goal.dropLast.length).filter
          (fun i => decide (goal.dropLast.getD i 0 = 0))).any
            (fun i => activation.getD i false) = false := by
        rw [List.any_eq_false]
        intro i hil
        simp only [hA i ((hset i).mp hil)]
        exact Bool.false_ne_true
      rw [hany]
      norm_num
    · rw [if_neg hA]
      have hany : ((List.range goal.dropLast.length).filter
          (fun i => decide (goal.dropLast.getD i 0 = 0))).any
            (fun i => activation.getD i false) = true := by
        rw [List.any_eq_true]
        push_neg at hA
        obtain ⟨i, hiF, hact⟩ := hA
        exact ⟨i, (hset i).mpr hiF, by simpa using hact⟩
      rw [hany]
      norm_num

theorem keyPress_reward_spec_witness :
    computeKeyPressReward [1, 0, 0] [1, 0] [1, 1] [false, true] =
      (if (Finset.range ([1, 0, 0] : List ℚ).dropLast.length).filter
            (fun i => ([1, 0, 0] : List ℚ).dropLast.getD i 0 = 1) = ∅ then 0
       else (1 / 2 : ℝ) *
         ((∑ i ∈ (Finset.range ([1, 0, 0] : List ℚ).dropLast.length).filter
             (fun i => ([1, 0, 0] : List ℚ).dropLast.getD i 0 = 1),
             toleranceGaussian
               ((([1, 0, 0] : List ℚ).dropLast.getD i 0 -
                 ([1, 0] : List ℚ).getD i 0 / ([1, 1] : List ℚ).getD i 0 : ℚ) : ℝ)
               0 (keyCloseEnoughToPressed : ℝ)
               ((keyCloseEnoughToPressed : ℝ) * 10)) /
           ((Finset.range ([1, 0, 0] : List ℚ).dropLast.length).filter
             (fun i => ([1, 0, 0] : List ℚ).dropLast.getD i 0 = 1)).card)) +
      (if ∀ i ∈ (Finset.range ([1, 0, 0] : List ℚ).dropLast.length).filter
            (fun i => ([1, 0, 0] : List ℚ).dropLast.getD i 0 = 0),
          ([false, true] : List Bool).getD i false = false
       then (1 / 2 : ℝ) else 0) :=
  keyPress_reward_spec [1, 0, 0] [1, 0] [1, 1] [false, true] (by decide)

/-! ## Fold lemmas specialized to the goal-state update -/

theorem goalFold_getD (notes : List (List Note)) (sustains : List ℚ)
    (tIdx : ℕ) (l : List ℕ) (hl : l.Nodup) (g : List (List ℚ)) (i : ℕ) :
    (l.foldl
      (fun g i => g.set i (setLastEntry
        (markKeys (g.getD i []) ((notes.getD (tIdx + i) []).map Note.key))
        (sustains.getD (tIdx + i) 0))) g).getD i [] =
      if i ∈ l ∧ i < g.length then
        setLastEntry
          (markKeys (g.getD i []) ((notes.getD (tIdx + i) []).map Note.key))
          (sustains.getD (tIdx + i) 0)
      else g.getD i [] :=
  foldl_set_getD l hl
    (fun j row => setLastEntry
      (markKeys row ((notes.getD (tIdx + j) []).map Note.key))
      (sustains.getD (tIdx + j) 0)) g [] i

theorem goalFold_length (notes : List (List Note)) (sustains : List ℚ)
    (tIdx : ℕ) (l : List ℕ) (g : List (List ℚ)) :
    (l.foldl
      (fun g i => g.set i (setLastEntry
        (markKeys (g.getD i []) ((notes.getD (tIdx + i) []).map Note.key))
        (sustains.getD (tIdx + i) 0))) g).length = g.length :=
  foldl_set_length l
    (fun j row => setLastEntry
      (markKeys row ((notes.getD (tIdx + j) []).map Note.key))
      (sustains.getD (tIdx + j) 0)) g []

/-- C4: for a timestep strictly before the end of the note schedule the
rebuilt goal state is a `(lookahead + 1) x (num_keys + 1)` array whose row
`i` marks exactly the keys active at schedule index `t + i`, whose last
column equals the schedule's sustain flag at `t + i`, and whose rows past
the schedule end stay all-zero; for `t` equal to the schedule length the
update returns without mutating anything. -/
theorem updateGoalState_spec (notes : List (List Note)) (sustains : List ℚ)
    (tIdx nStepsLookahead nKeys : ℕ) :
    (tIdx < notes.length →
      ∃ g, updateGoalState notes sustains tIdx nStepsLookahead nKeys = some g ∧
        g.length = nStepsLookahead + 1 ∧
        (∀ row ∈ g, row.length = nKeys + 1) ∧
        (∀ i ≤ nStepsLookahead, ∀ j < nKeys,
          (g.getD i []).getD j 0 =
            if tIdx + i < notes.length ∧
                (∃ n ∈ notes.getD (tIdx + i) [], n.key = j) then 1 else 0) ∧
        (∀ i ≤ nStepsLookahead,
          (g.getD i []).getD nKeys 0 =
            if tIdx + i < notes.length then sustains.getD (tIdx + i) 0 else 0)) ∧
    (tIdx = notes.length →
      updateGoalState notes sustains tIdx nStepsLookahead nKeys = none) := by
  constructor
  · intro ht
    have hne : tIdx ≠ notes.length := Nat.ne_of_lt ht
    simp only [updateGoalState, if_neg hne]
    refine ⟨_, rfl, ?_, ?_, ?_, ?_⟩
    · rw [goalFold_length, List.length_replicate]
    · intro row hrow
      obtain ⟨i, hi, hrow⟩ := List.mem_iff_getElem.mp hrow
      rw [goalFold_length, List.length_replicate] at hi
      rw [← List.getD_eq_getElem _ [] ?_] at hrow
      swap
      · rw [goalFold_length, List.length_replicate]; exact hi
      rw [goalFold_getD _ _ _ _ (List.nodup_range _) _ i] at hrow
      rw [List.length_replicate] at hrow
      rw [getD_replicate] at hrow
      by_cases hin : i ∈ List.range
          (min (tIdx + nStepsLookahead + 1) notes.length - tIdx)
      · rw [if_pos ⟨hin, hi⟩, if_pos hi] at hrow
        rw [← hrow, setLastEntry_length, markKeys_length, List.length_replicate]
      · rw [if_neg (fun hc => hin hc.1), if_pos hi] at hrow
        rw [← hrow, List.length_replicate]
    · intro i hiL j hj
      rw [goalFold_getD _ _ _ _ (List.nodup_range _) _ i, List.length_replicate,
        getD_replicate, if_pos (Nat.lt_succ_of_le hiL)]
      by_cases hin : i ∈ List.range
          (min (tIdx + nStepsLookahead + 1) notes.length - tIdx)
      · have hlt : tIdx + i < notes.length := by
          have h1 := List.mem_range.mp hin
          have h2 : min (tIdx + nStepsLookahead + 1) notes.length ≤
            notes.length := min_le_right _ _
          omega
        rw [if_pos ⟨hin, Nat.lt_succ_of_le hiL⟩]
        rw [setLastEntry_getD, markKeys_length, List.length_replicate]
        rw [if_neg (fun hc => (by omega : ¬nKeys + 1 - 1 = j) hc.1)]
        rw [markKeys_getD, List.length_replicate, getD_replicate]
        by_cases hex : ∃ n ∈ notes.getD (tIdx + i) [], n.key = j
        · rw [if_pos ⟨List.mem_map.mpr
            (by obtain ⟨n, hn, hk⟩ := hex; exact ⟨n, hn, hk⟩),
            Nat.lt_succ_of_lt hj⟩, if_pos ⟨hlt, hex⟩]
        · have h1 : ¬(j ∈ (notes.getD (tIdx + i) []).map Note.key ∧
              j < nKeys + 1) := by
            rintro ⟨hmem, -⟩
            obtain ⟨n, hn, hk⟩ := List.mem_map.mp hmem
            exact hex ⟨n, hn, hk⟩
          rw [if_neg h1, ite_self, if_neg (fun hc => hex hc.2)]
      · have hge : ¬tIdx + i < notes.length := by
          have h1 : ¬i < min (tIdx + nStepsLookahead + 1) notes.length - tIdx :=
            fun hc => hin (List.mem_range.mpr hc)
          rcases min_cases (tIdx + nStepsLookahead + 1) notes.length with
            ⟨h2, h3⟩ | ⟨h2, h3⟩ <;> rw [h2] at h1 <;> omega
        rw [if_neg (fun hc => hin hc.1), getD_replicate, ite_self,
          if_neg (fun hc => hge hc.1)]
    · intro i hiL
      rw [goalFold_getD _ _ _ _ (List.nodup_range _) _ i, List.length_replicate,
        getD_replicate, if_pos (Nat.lt_succ_of_le hiL)]
      by_cases hin : i ∈ List.range
          (min (tIdx + nStepsLookahead + 1) notes.length - tIdx)
      · have hlt : tIdx + i < notes.length := by
          have h1 := List.mem_range.mp hin
          have h2 : min (tIdx + nStepsLookahead + 1) notes.length ≤
            notes.length := min_le_right _ _
          omega
        rw [if_pos ⟨hin, Nat.lt_succ_of_le hiL⟩]
        rw [setLastEntry_getD, markKeys_length, List.length_replicate]
        rw [if_pos ⟨by omega, by omega⟩, if_pos hlt]
      · have hge : ¬tIdx + i < notes.length := by
          have h1 : ¬i < min (tIdx + nStepsLookahead + 1) notes.length - tIdx :=
            fun hc => hin (List.mem_range.mpr hc)
          rcases min_cases (tIdx + nStepsLookahead + 1) notes.length with
            ⟨h2, h3⟩ | ⟨h2, h3⟩ <;> rw [h2] at h1 <;> omega
        rw [if_neg (fun hc => hin hc.1), getD_replicate, ite_self, if_neg hge]
  · intro h
    simp only [updateGoalState, if_pos h]

theorem updateGoalState_spec_witness :
    updateGoalState [[⟨0, 0⟩]] [1] 1 0 1 = none ∧
    ∃ g, updateGoalState [[⟨0, 0⟩]] [1] 0 0 1 = some g :=
  ⟨(updateGoalState_spec [[⟨0, 0⟩]] [1] 1 0 1).2 rfl, by
    obtain ⟨g, hg, -⟩ := (updateGoalState_spec [[⟨0, 0⟩]] [1] 0 0 1).1
      (by decide)
    exact ⟨g, hg⟩⟩

/-! ## Lemmas specialized to the fingering-state update -/

theorem handFold_length (keys : List (ℕ × ℕ)) (m : List (List ℚ)) (h : ℕ) :
    (keys.foldl (fun m2 p => m2.set h ((m2.getD h []).set p.2 1)) m).length =
      m.length := by
  induction keys generalizing m with
  | nil => rfl
  | cons p ps ih => rw [List.foldl_cons, ih, List.length_set]

theorem handFold_getD (keys : List (ℕ × ℕ)) (m : List (List ℚ)) (h g : ℕ) :
    (keys.foldl (fun m2 p => m2.set h ((m2.getD h []).set p.2 1)) m).getD g [] =
      if g = h ∧ h < m.length then markKeys (m.getD h []) (keys.map Prod.snd)
      else m.getD g [] := by
  induction keys generalizing m with
  | nil =>
      rw [List.foldl_nil, List.map_nil]
      by_cases hg : g = h ∧ h < m.length
      · rcases hg with ⟨rfl, h2⟩
        rw [if_pos ⟨rfl, h2⟩]
        rfl
      · rw [if_neg hg]
  | cons p ps ih =>
      rw [List.foldl_cons, ih, List.length_set]
      by_cases hg : g = h ∧ h < m.length
      · rcases hg with ⟨rfl, hlt⟩
        rw [if_pos ⟨rfl, hlt⟩, if_pos ⟨rfl, hlt⟩, getD_set, if_pos ⟨rfl, hlt⟩]
        rfl
      · rw [if_neg hg, if_neg hg, getD_set,
          if_neg (fun hc => hg ⟨hc.1.symm, hc.2⟩)]

theorem rhList_mem (cur : List Note) (q : ℕ × ℕ) :
    q ∈ cur.filterMap
        (fun n => if n.fingering < 5 then some (n.key, n.fingering) else none) ↔
      ∃ n ∈ cur, n.fingering < 5 ∧ q = (n.key, n.fingering) := by
  rw [List.mem_filterMap]
  constructor
  · rintro ⟨n, hn, heq⟩
    by_cases h5 : n.fingering < 5
    · rw [if_pos h5] at heq
      exact ⟨n, hn, h5, (Option.some.inj heq).symm⟩
    · rw [if_neg h5] at heq
      exact Option.noConfusion heq
  · rintro ⟨n, hn, h5, rfl⟩
    exact ⟨n, hn, by rw [if_pos h5]⟩

theorem lhList_mem (cur : List Note) (q : ℕ × ℕ) :
    q ∈ cur.filterMap
        (fun n => if n.fingering < 5 then none
          else some (n.key, n.fingering - 5)) ↔
      ∃ n ∈ cur, 5 ≤ n.fingering ∧ q = (n.key, n.fingering - 5) := by
  rw [List.mem_filterMap]
  constructor
  · rintro ⟨n, hn, heq⟩
    by_cases h5 : n.fingering < 5
    · rw [if_pos h5] at heq
      exact Option.noConfusion heq
    · rw [if_neg h5] at heq
      exact ⟨n, hn, Nat.le_of_not_lt h5, (Option.some.inj heq).symm⟩
  · rintro ⟨n, hn, h5, rfl⟩
    exact ⟨n, hn, by rw [if_neg (Nat.not_lt.mpr h5)]⟩

theorem fingeringMatrix_rows (rh lh : List (ℕ × ℕ)) :
    ([(0, rh), (1, lh)].foldl
      (fun m hk =>
        hk.2.foldl (fun m2 p => m2.set hk.1 ((m2.getD hk.1 []).set p.2 1)) m)
      (List.replicate 2 (List.replicate 5 (0 : ℚ)))) =
    [markKeys (List.replicate 5 0) (rh.map Prod.snd),
     markKeys (List.replicate 5 0) (lh.map Prod.snd)] := by
  simp only [List.foldl_cons, List.foldl_nil]
  apply List.ext_getElem
  · rw [handFold_length, handFold_length, List.length_replicate]
    rfl
  · intro i h1 h2
    rw [handFold_length, handFold_length, List.length_replicate] at h1
    interval_cases i
    · rw [← List.getD_eq_getElem _ []
        (by rw [handFold_length, handFold_length, List.length_replicate]; omega)]
      rw [handFold_getD]
      rw [if_neg (fun hc => Nat.zero_ne_one hc.1)]
      rw [handFold_getD, List.length_replicate]
      rw [if_pos ⟨rfl, by omega⟩, getD_replicate, if_pos (by omega)]
      rfl
    · rw [← List.getD_eq_getElem _ []
        (by rw [handFold_length, handFold_length, List.length_replicate]; omega)]
      rw [handFold_getD, handFold_length, List.length_replicate]
      rw [if_pos ⟨rfl, by omega⟩]
      rw [handFold_getD, List.length_replicate]
      rw [if_neg (fun hc => Nat.one_ne_zero hc.1)]
      rw [getD_replicate, if_pos (by omega)]
      rfl

/-- C8: the fingering-state update sends each note of the current timestep
with finger index `f < 5` to the right hand as `(key, f)` and each note
with `f >= 5` to the left hand as `(key, f - 5)`, and the resulting 2 x 5
matrix holds `1` exactly at the (hand, finger) pairs in use and `0`
elsewhere. -/
theorem updateFingeringState_spec (notes : List (List Note)) (tIdx : ℕ)
    (ht : tIdx < notes.length)
    (_hf : ∀ n ∈ notes.getD tIdx [], n.fingering < 10) :
    ∃ rh lh mat, updateFingeringState notes tIdx = some (rh, lh, mat) ∧
      (∀ n ∈ notes.getD tIdx [], n.fingering < 5 → (n.key, n.fingering) ∈ rh) ∧
      (∀ n ∈ notes.getD tIdx [], 5 ≤ n.fingering →
        (n.key, n.fingering - 5) ∈ lh) ∧
      (∀ q ∈ rh, ∃ n ∈ notes.getD tIdx [],
        n.fingering < 5 ∧ q = (n.key, n.fingering)) ∧
      (∀ q ∈ lh, ∃ n ∈ notes.getD tIdx [],
        5 ≤ n.fingering ∧ q = (n.key, n.fingering - 5)) ∧
      mat.length = 2 ∧ (∀ row ∈ mat, row.length = 5) ∧
      (∀ f < 5, (mat.getD 0 []).getD f 0 =
        if ∃ n ∈ notes.getD tIdx [], n.fingering = f then 1 else 0) ∧
      (∀ f < 5, (mat.getD 1 []).getD f 0 =
        if ∃ n ∈ notes.getD tIdx [], n.fingering = f + 5 then 1 else 0) := by
  have hne : tIdx ≠ notes.length := Nat.ne_of_lt ht
  simp only [updateFingeringState, if_neg hne, fingeringMatrix_rows]
  refine ⟨_, _, _, rfl, ?_, ?_, ?_, ?_, rfl, ?_, ?_, ?_⟩
  · intro n hn h5
    exact (rhList_mem _ _).mpr ⟨n, hn, h5, rfl⟩
  · intro n hn h5
    exact (lhList_mem _ _).mpr ⟨n, hn, h5, rfl⟩
  · intro q hq
    exact (rhList_mem _ _).mp hq
  · intro q hq
    exact (lhList_mem _ _).mp hq
  · intro row hrow
    rcases List.mem_cons.mp hrow with rfl | hrow
    · rw [markKeys_length, List.length_replicate]
    · rcases List.mem_cons.mp hrow with rfl | hrow
      · rw [markKeys_length, List.length_replicate]
      · exact absurd hrow (List.not_mem_nil _)
  · intro f hf5
    rw [List.getD_cons_zero, markKeys_getD, List.length_replicate]
    by_cases hex : ∃ n ∈ notes.getD tIdx [], n.fingering = f
    · obtain ⟨n, hn, hnf⟩ := hex
      rw [if_pos ⟨List.mem_map.mpr ⟨(n.key, n.fingering),
          (rhList_mem _ _).mpr ⟨n, hn, by omega, rfl⟩, hnf⟩, hf5⟩,
        if_pos ⟨n, hn, hnf⟩]
    · rw [if_neg, if_neg hex, getD_replicate, if_pos hf5]
      rintro ⟨hmem, -⟩
      obtain ⟨q, hq, hqf⟩ := List.mem_map.mp hmem
      obtain ⟨n, hn, -, rfl⟩ := (rhList_mem _ _).mp hq
      exact hex ⟨n, hn, hqf⟩
  · intro f hf5
    rw [List.getD_cons_succ, List.getD_cons_zero, markKeys_getD,
      List.length_replicate]
    by_cases hex : ∃ n ∈ notes.getD tIdx [], n.fingering = f + 5
    · obtain ⟨n, hn, hnf⟩ := hex
      rw [if_pos ⟨List.mem_map.mpr ⟨(n.key, n.fingering - 5),
          (lhList_mem _ _).mpr ⟨n, hn, by omega, rfl⟩, by omega⟩, hf5⟩,
        if_pos ⟨n, hn, hnf⟩]
    · rw [if_neg, if_neg hex, getD_replicate, if_pos hf5]
      rintro ⟨hmem, -⟩
      obtain ⟨q, hq, hqf⟩ := List.mem_map.mp hmem
      obtain ⟨n, hn, hge, rfl⟩ := (lhList_mem _ _).mp hq
      exact hex ⟨n, hn, by simp only at hqf; omega⟩

theorem updateFingeringState_spec_witness :
    ∃ rh lh mat, updateFingeringState [[⟨3, 6⟩]] 0 = some (rh, lh, mat) ∧
      (∀ n ∈ ([[⟨3, 6⟩]] : List (List Note)).getD 0 [], n.fingering < 5 →
        (n.key, n.fingering) ∈ rh) ∧
      (∀ n ∈ ([[⟨3, 6⟩]] : List (List Note)).getD 0 [], 5 ≤ n.fingering →
        (n.key, n.fingering - 5) ∈ lh) ∧
      (∀ q ∈ rh, ∃ n ∈ ([[⟨3, 6⟩]] : List (List Note)).getD 0 [],
        n.fingering < 5 ∧ q = (n.key, n.fingering)) ∧
      (∀ q ∈ lh, ∃ n ∈ ([[⟨3, 6⟩]] : List (List Note)).getD 0 [],
        5 ≤ n.fingering ∧ q = (n.key, n.fingering - 5)) ∧
      mat.length = 2 ∧ (∀ row ∈ mat, row.length = 5) ∧
      (∀ f < 5, (mat.getD 0 []).getD f 0 =
        if ∃ n ∈ ([[⟨3, 6⟩]] : List (List Note)).getD 0 [],
          n.fingering = f then 1 else 0) ∧
      (∀ f < 5, (mat.getD 1 []).getD f 0 =
        if ∃ n ∈ ([[⟨3, 6⟩]] : List (List Note)).getD 0 [],
          n.fingering = f + 5 then 1 else 0) :=
  updateFingeringState_spec [[⟨3, 6⟩]] 0 (by decide) (by decide)

end RoboPianistG1
